import Mathlib

/-!
Shallow embedding of the Crank-Nicolson / Runge-Kutta reaction-diffusion
notebook (`2014-01-09-Crank_Nicolson_Runge_Kutta.ipynb`).  Vectors of length
`J` are `Fin J → ℚ`, numpy elementwise operations become pointwise
operations, matrices are `Matrix (Fin J) (Fin J) ℚ`, and the external
`numpy.linalg.solve` is modelled as the exact linear solve by the adjugate
(the unique solution when the matrix is invertible, which is the exact
arithmetic idealization of the solver).
-/

namespace CNRK

/-! ### Definitions translated from the notebook -/

/-- Reaction denominator `1 + u*u`, the term `numpy.add(1., numpy.multiply(U,U))`
appearing inside the nonlinearity of the reaction kinetics. -/
def rateDenom (u : ℚ) : ℚ := 1 + u * u

/-- Scalar reaction rate, the notebook lambda
`f = lambda u, v: dt*(v*(k0 + float(u*u)/float(1. + u*u)) - u)`. -/
def f_scalar (dt k0 u v : ℚ) : ℚ := dt * (v * (k0 + u * u / rateDenom u) - u)

/-- Scalar reaction rate for the second species, the notebook lambda
`g = lambda u, v: -f(u,v)`. -/
def g_scalar (dt k0 u v : ℚ) : ℚ := -(f_scalar dt k0 u v)

/-- Explicit-Euler reaction step vector, the notebook function `f_vec_ee`:
`dt * (V*(k0 + U*U/(1+U*U)) - U)` elementwise. -/
def f_vec_ee {J : ℕ} (dt k0 : ℚ) (U V : Fin J → ℚ) : Fin J → ℚ :=
  fun j => dt * (V j * (k0 + U j * U j / rateDenom (U j)) - U j)

/-- Unscaled elementwise rate, the inner lambda `f_vec` of the notebook
function `f_vec_rk`: `V*(k0 + U*U/(1+U*U)) - U`, with no `dt` factor. -/
def f_vec {J : ℕ} (k0 : ℚ) (U V : Fin J → ℚ) : Fin J → ℚ :=
  fun j => V j * (k0 + U j * U j / rateDenom (U j)) - U j

/-- Runge-Kutta-4 reaction step vector, the notebook function `f_vec_rk`:
four stage evaluations of the unscaled rate `f_vec`, each on a sign-flipped
provisional state, combined as `dt/6 * (k1 + 2*k2 + 2*k3 + k4)`. -/
def f_vec_rk {J : ℕ} (dt k0 : ℚ) (U V : Fin J → ℚ) : Fin J → ℚ :=
  let k1 := f_vec k0 U V
  let k2 := f_vec k0 (fun j => U j + dt / 2 * k1 j) (fun j => V j - dt / 2 * k1 j)
  let k3 := f_vec k0 (fun j => U j + dt / 2 * k2 j) (fun j => V j - dt / 2 * k2 j)
  let k4 := f_vec k0 (fun j => U j + dt * k3 j) (fun j => V j - dt * k3 j)
  fun j => dt / 6 * (k1 j + 2 * k2 j + 2 * k3 j + k4 j)

/-- Specification-side unscaled rate function
`rate(U,V) = V*(k0 + U^2/(1+U^2)) - U`, written from the spec wording. -/
def rateSpec {J : ℕ} (k0 : ℚ) (U V : Fin J → ℚ) : Fin J → ℚ :=
  fun j => V j * (k0 + (U j) ^ 2 / (1 + (U j) ^ 2)) - U j

/-- Specification-side Runge-Kutta-4 contribution, written from the spec
wording with vector arithmetic: stages `k1 = rate(U,V)`,
`k2 = rate(U + (dt/2)*k1, V - (dt/2)*k1)`, `k3 = rate(U + (dt/2)*k2, V - (dt/2)*k2)`,
`k4 = rate(U + dt*k3, V - dt*k3)`, result `dt/6 * (k1 + 2*k2 + 2*k3 + k4)`. -/
def rk4Spec {J : ℕ} (dt k0 : ℚ) (U V : Fin J → ℚ) : Fin J → ℚ :=
  let k1 := rateSpec k0 U V
  let k2 := rateSpec k0 (U + (dt / 2) • k1) (V - (dt / 2) • k1)
  let k3 := rateSpec k0 (U + (dt / 2) • k2) (V - (dt / 2) • k2)
  let k4 := rateSpec k0 (U + dt • k3) (V - dt • k3)
  (dt / 6) • (k1 + (2 : ℚ) • k2 + (2 : ℚ) • k3 + k4)

/-- Model of `numpy.diagflat(v, k)`: the J×J matrix carrying the list `v`
on the diagonal with offset `k` (entry `(i,j)` is `v[min i j]` when
`j - i = k`, else `0`). -/
def diagflat {J : ℕ} (v : List ℚ) (k : ℤ) : Matrix (Fin J) (Fin J) ℚ :=
  Matrix.of fun i j => if (j.val : ℤ) - (i.val : ℤ) = k then v.getD (min i.val j.val) 0 else 0

/-- Common tridiagonal builder pattern of the notebook matrix cells:
`numpy.diagflat([off]*(J-1), -1) + numpy.diagflat([dEnd]+[dMid]*(J-2)+[dEnd]) +
numpy.diagflat([off]*(J-1), 1)`. -/
def triDiag (J : ℕ) (off dEnd dMid : ℚ) : Matrix (Fin J) (Fin J) ℚ :=
  diagflat (List.replicate (J - 1) off) (-1)
    + diagflat ([dEnd] ++ List.replicate (J - 2) dMid ++ [dEnd]) 0
    + diagflat (List.replicate (J - 1) off) 1

/-- The notebook scalar `sigma_u = float(D_u*dt)/float((2.*dx*dx))`
(same formula for `sigma_v` with `D_v`). -/
def sigma (D dt dx : ℚ) : ℚ := D * dt / (2 * dx * dx)

/-- Implicit-side operator `A_u` (resp. `A_v`) of the notebook, built from a
species' sigma: sub/super-diagonals `-sigma`, diagonal
`[1+sigma] + [1+2*sigma]*(J-2) + [1+sigma]`. -/
def A_mat (J : ℕ) (s : ℚ) : Matrix (Fin J) (Fin J) ℚ :=
  triDiag J (-s) (1 + s) (1 + 2 * s)

/-- Explicit-side operator `B_u` (resp. `B_v`) of the notebook:
sub/super-diagonals `sigma`, diagonal `[1-sigma] + [1-2*sigma]*(J-2) + [1-sigma]`. -/
def B_mat (J : ℕ) (s : ℚ) : Matrix (Fin J) (Fin J) ℚ :=
  triDiag J s (1 - s) (1 - 2 * s)

/-- Exact linear solve modelling `numpy.linalg.solve(M, b)`: multiplication
by `det⁻¹ • adjugate`, which is the inverse matrix when `M` is invertible. -/
def solveExact {J : ℕ} (M : Matrix (Fin J) (Fin J) ℚ) (b : Fin J → ℚ) : Fin J → ℚ :=
  (M.det⁻¹ • M.adjugate).mulVec b

/-- Right-hand side of species U at one step:
`B_u.dot(U_record[ti-1]) + f_vec(U_record[ti-1], V_record[ti-1])`. -/
def rhsU {J : ℕ} (Bu : Matrix (Fin J) (Fin J) ℚ)
    (fvec : (Fin J → ℚ) → (Fin J → ℚ) → Fin J → ℚ) (U V : Fin J → ℚ) : Fin J → ℚ :=
  fun j => Bu.mulVec U j + fvec U V j

/-- Right-hand side of species V at one step:
`B_v.dot(V_record[ti-1]) - f_vec(U_record[ti-1], V_record[ti-1])`. -/
def rhsV {J : ℕ} (Bv : Matrix (Fin J) (Fin J) ℚ)
    (fvec : (Fin J → ℚ) → (Fin J → ℚ) → Fin J → ℚ) (U V : Fin J → ℚ) : Fin J → ℚ :=
  fun j => Bv.mulVec V j - fvec U V j

/-- One iteration of the notebook time loop, for either reaction variant
`fvec` (`f_vec_ee dt k0` or `f_vec_rk dt k0`): solve
`A_u · U_next = B_u·U + r` and `A_v · V_next = B_v·V - r` where
`r = fvec U V` is evaluated on the previous step's state. -/
def stepCN {J : ℕ} (Au Bu Av Bv : Matrix (Fin J) (Fin J) ℚ)
    (fvec : (Fin J → ℚ) → (Fin J → ℚ) → Fin J → ℚ)
    (s : (Fin J → ℚ) × (Fin J → ℚ)) : (Fin J → ℚ) × (Fin J → ℚ) :=
  (solveExact Au (rhsU Bu fvec s.1 s.2), solveExact Av (rhsV Bv fvec s.1 s.2))

/-- State reached after `n` iterations of the time loop: entry `n` of the
records `U_record`/`V_record` (index 0 is the initial condition). -/
def recordAt {J : ℕ} (Au Bu Av Bv : Matrix (Fin J) (Fin J) ℚ)
    (fvec : (Fin J → ℚ) → (Fin J → ℚ) → Fin J → ℚ)
    (init : (Fin J → ℚ) × (Fin J → ℚ)) : ℕ → (Fin J → ℚ) × (Fin J → ℚ)
  | 0 => init
  | n + 1 => stepCN Au Bu Av Bv fvec (recordAt Au Bu Av Bv fvec init n)

/-- Full trajectory record with `N` entries, one per time index `0..N-1`,
as accumulated by the notebook loop `for ti in range(1,N)`. -/
def trajectory {J : ℕ} (Au Bu Av Bv : Matrix (Fin J) (Fin J) ℚ)
    (fvec : (Fin J → ℚ) → (Fin J → ℚ) → Fin J → ℚ)
    (init : (Fin J → ℚ) × (Fin J → ℚ)) (N : ℕ) : List ((Fin J → ℚ) × (Fin J → ℚ)) :=
  (List.range N).map (recordAt Au Bu Av Bv fvec init)

/-- Initial `U` of the notebook:
`numpy.array([0.1 for i in range(no_high,J)] + [2. for i in range(0,no_high)])`,
that is `J - noHigh` copies of `0.1` followed by `noHigh` copies of `2`. -/
def U_init_list (J noHigh : ℕ) : List ℚ :=
  List.replicate (J - noHigh) (1 / 10) ++ List.replicate noHigh 2

/-- Initial `U` as a length-`J` vector. -/
def U_init (J noHigh : ℕ) : Fin J → ℚ :=
  fun j => (U_init_list J noHigh).getD j.val 0

/-- Initial `V` of the notebook:
`numpy.array([float(total_protein-dx*sum(U))/float(J*dx) for i in range(0,J)])`. -/
def V_init (J : ℕ) (totalProtein dx : ℚ) (U : Fin J → ℚ) : Fin J → ℚ :=
  fun _ => (totalProtein - dx * ∑ j, U j) / (J * dx)

/-- Discrete total mass `numpy.sum(dx*U + dx*V)` of a state (the notebook
conserved quantity `Σ_j (U_j + V_j)·dx`). -/
def totalMass {J : ℕ} (dx : ℚ) (U V : Fin J → ℚ) : ℚ :=
  ∑ j, (U j + V j) * dx

end CNRK

namespace CNRK

/-! ### Supporting lemmas -/

lemma getD_replicate_of_lt {m n : ℕ} (a : ℚ) (h : n < m) :
    (List.replicate m a).getD n 0 = a := by
  rw [List.getD_eq_getElem?_getD, List.getElem?_replicate, if_pos h, Option.getD_some]

lemma diagList_getD {J : ℕ} (hJ : 2 ≤ J) (dEnd dMid : ℚ) (n : ℕ) (hn : n < J) :
    (([dEnd] ++ List.replicate (J - 2) dMid) ++ [dEnd]).getD n 0
      = if n = 0 ∨ n = J - 1 then dEnd else dMid := by
  rcases n with _ | m
  · rw [if_pos (Or.inl rfl)]
    rw [List.getD_append _ _ _ 0
      (by simp only [List.length_append, List.length_replicate, List.length_singleton]; omega)]
    rw [List.getD_append _ _ _ 0 (by simp only [List.length_singleton]; omega)]
    rfl
  · by_cases hm : m < J - 2
    · rw [if_neg (by omega)]
      rw [List.getD_append _ _ _ (m + 1)
        (by simp only [List.length_append, List.length_replicate, List.length_singleton]; omega)]
      rw [List.getD_append_right _ _ _ (m + 1) (by simp only [List.length_singleton]; omega)]
      simp only [List.length_singleton]
      exact getD_replicate_of_lt dMid (by omega)
    · have hm2 : m = J - 2 := by omega
      rw [if_pos (Or.inr (by omega))]
      rw [List.getD_append_right _ _ _ (m + 1)
        (by simp only [List.length_append, List.length_replicate, List.length_singleton]; omega)]
      have hz : m + 1 - ([dEnd] ++ List.replicate (J - 2) dMid).length = 0 := by
        simp only [List.length_append, List.length_replicate, List.length_singleton]; omega
      rw [hz]
      rfl

lemma triDiag_apply {J : ℕ} (hJ : 2 ≤ J) (off dEnd dMid : ℚ) (i j : Fin J) :
    triDiag J off dEnd dMid i j =
      if i = j then (if i.val = 0 ∨ i.val = J - 1 then dEnd else dMid)
      else if i.val + 1 = j.val ∨ j.val + 1 = i.val then off else 0 := by
  have hi : i.val < J := i.isLt
  have hj : j.val < J := j.isLt
  unfold triDiag diagflat
  simp only [Matrix.add_apply, Matrix.of_apply]
  rcases eq_or_ne i j with rfl | hne
  · rw [if_neg (show ¬((i.val : ℤ) - (i.val : ℤ) = -1) by omega),
      if_pos (show (i.val : ℤ) - (i.val : ℤ) = 0 by omega),
      if_neg (show ¬((i.val : ℤ) - (i.val : ℤ) = 1) by omega),
      if_pos rfl, Nat.min_self, diagList_getD hJ dEnd dMid i.val hi]
    ring
  · have hij : i.val ≠ j.val := fun h => hne (Fin.ext h)
    rw [if_neg hne]
    rcases Nat.lt_or_ge i.val j.val with hlt | hge
    · rcases eq_or_ne (i.val + 1) j.val with hadj | hfar
      · rw [if_neg (show ¬((j.val : ℤ) - (i.val : ℤ) = -1) by omega),
          if_neg (show ¬((j.val : ℤ) - (i.val : ℤ) = 0) by omega),
          if_pos (show (j.val : ℤ) - (i.val : ℤ) = 1 by omega),
          if_pos (Or.inl hadj)]
        have hmin : min i.val j.val = i.val := by omega
        rw [hmin, getD_replicate_of_lt off (by omega)]
        ring
      · rw [if_neg (show ¬((j.val : ℤ) - (i.val : ℤ) = -1) by omega),
          if_neg (show ¬((j.val : ℤ) - (i.val : ℤ) = 0) by omega),
          if_neg (show ¬((j.val : ℤ) - (i.val : ℤ) = 1) by omega),
          if_neg (show ¬(i.val + 1 = j.val ∨ j.val + 1 = i.val) by omega)]
        ring
    · rcases eq_or_ne (j.val + 1) i.val with hadj | hfar
      · rw [if_pos (show (j.val : ℤ) - (i.val : ℤ) = -1 by omega),
          if_neg (show ¬((j.val : ℤ) - (i.val : ℤ) = 0) by omega),
          if_neg (show ¬((j.val : ℤ) - (i.val : ℤ) = 1) by omega),
          if_pos (Or.inr hadj)]
        have hmin : min i.val j.val = j.val := by omega
        rw [hmin, getD_replicate_of_lt off (by omega)]
        ring
      · rw [if_neg (show ¬((j.val : ℤ) - (i.val : ℤ) = -1) by omega),
          if_neg (show ¬((j.val : ℤ) - (i.val : ℤ) = 0) by omega),
          if_neg (show ¬((j.val : ℤ) - (i.val : ℤ) = 1) by omega),
          if_neg (show ¬(i.val + 1 = j.val ∨ j.val + 1 = i.val) by omega)]
        ring

end CNRK

namespace CNRK

lemma triDiag_decomp {J : ℕ} (hJ : 2 ≤ J) (off dEnd dMid : ℚ) (i j : Fin J) :
    triDiag J off dEnd dMid i j =
      (if j = i then (if i.val = 0 ∨ i.val = J - 1 then dEnd else dMid) else 0)
      + (if j.val = i.val + 1 then off else 0)
      + (if j.val + 1 = i.val then off else 0) := by
  have hi : i.val < J := i.isLt
  have hj : j.val < J := j.isLt
  rw [triDiag_apply hJ]
  rcases eq_or_ne i j with rfl | hne
  · have e1 : (if (i.val : ℕ) = i.val + 1 then off else (0 : ℚ)) = 0 := if_neg (by omega)
    have e2 : (if i.val + 1 = i.val then off else (0 : ℚ)) = 0 := if_neg (by omega)
    rw [if_pos rfl, if_pos rfl, e1, e2]
    ring
  · have hij : i.val ≠ j.val := fun h => hne (Fin.ext h)
    rw [if_neg hne, if_neg (Ne.symm hne)]
    rcases eq_or_ne (i.val + 1) j.val with h1 | h1
    · rw [if_pos (Or.inl h1), if_pos h1.symm, if_neg (by omega)]
      ring
    · rcases eq_or_ne (j.val + 1) i.val with h2 | h2
      · rw [if_pos (Or.inr h2), if_neg (by omega), if_pos h2]
        ring
      · rw [if_neg (by omega), if_neg (by omega), if_neg (by omega)]
        ring

lemma sumIteVal {M : Type} [AddCommMonoid M] (J c : ℕ) (g : ℕ → M) :
    (∑ i : Fin J, if i.val = c then g i.val else 0) = if c < J then g c else 0 := by
  by_cases h : c < J
  · rw [if_pos h]
    rw [Finset.sum_eq_single ⟨c, h⟩]
    · rw [if_pos rfl]
    · intro b _ hb
      rw [if_neg]
      intro hbc
      exact hb (Fin.ext hbc)
    · intro habs
      exact absurd (Finset.mem_univ _) habs
  · rw [if_neg h]
    apply Finset.sum_eq_zero
    intro b _
    rw [if_neg]
    have := b.isLt
    omega

lemma sumIteSucc {M : Type} [AddCommMonoid M] (J c : ℕ) (a : M) :
    (∑ i : Fin J, if i.val + 1 = c then a else 0)
      = if 1 ≤ c ∧ c ≤ J then a else 0 := by
  have h : ∀ i : Fin J, (if i.val + 1 = c then a else 0)
      = (if i.val = c - 1 then (if 1 ≤ c then a else 0) else 0) := by
    intro i
    by_cases h1 : i.val + 1 = c
    · rw [if_pos h1, if_pos (by omega), if_pos (by omega)]
    · rw [if_neg h1]
      by_cases h2 : i.val = c - 1
      · rw [if_pos h2, if_neg (by omega)]
      · rw [if_neg h2]
  rw [Finset.sum_congr rfl fun i _ => h i,
    sumIteVal J (c - 1) fun _ => if 1 ≤ c then a else 0]
  by_cases hc : 1 ≤ c
  · by_cases hcJ : c ≤ J
    · rw [if_pos (by omega), if_pos hc, if_pos ⟨hc, hcJ⟩]
    · rw [if_neg (by omega), if_neg (by omega)]
  · by_cases h0 : c - 1 < J
    · rw [if_pos h0, if_neg hc, if_neg (by omega)]
    · rw [if_neg h0, if_neg (by omega)]

lemma triDiag_row_sum {J : ℕ} (hJ : 2 ≤ J) (off dEnd dMid : ℚ) (i : Fin J) :
    ∑ j, triDiag J off dEnd dMid i j
      = if i.val = 0 ∨ i.val = J - 1 then dEnd + off else dMid + 2 * off := by
  have hi : i.val < J := i.isLt
  calc ∑ j, triDiag J off dEnd dMid i j
      = ∑ j : Fin J, ((if j = i then (if i.val = 0 ∨ i.val = J - 1 then dEnd else dMid) else 0)
          + (if j.val = i.val + 1 then off else 0)
          + (if j.val + 1 = i.val then off else 0)) :=
        Finset.sum_congr rfl fun j _ => triDiag_decomp hJ off dEnd dMid i j
    _ = (∑ j : Fin J, if j = i then (if i.val = 0 ∨ i.val = J - 1 then dEnd else dMid) else 0)
          + (∑ j : Fin J, if j.val = i.val + 1 then off else 0)
          + (∑ j : Fin J, if j.val + 1 = i.val then off else 0) := by
        rw [Finset.sum_add_distrib, Finset.sum_add_distrib]
    _ = (if i.val = 0 ∨ i.val = J - 1 then dEnd else dMid)
          + (if i.val + 1 < J then off else 0)
          + (if 1 ≤ i.val ∧ i.val ≤ J then off else 0) := by
        rw [Finset.sum_ite_eq' Finset.univ i fun _ => if i.val = 0 ∨ i.val = J - 1 then dEnd else dMid,
          if_pos (Finset.mem_univ i), sumIteVal J (i.val + 1) fun _ => off, sumIteSucc J i.val off]
    _ = if i.val = 0 ∨ i.val = J - 1 then dEnd + off else dMid + 2 * off := by
        by_cases h0 : i.val = 0
        · rw [if_pos (Or.inl h0), if_pos (by omega), if_neg (by omega), if_pos (Or.inl h0)]
          ring
        · by_cases hl : i.val = J - 1
          · rw [if_pos (Or.inr hl), if_neg (by omega), if_pos (by omega), if_pos (Or.inr hl)]
            ring
          · rw [if_neg (by omega), if_pos (by omega), if_pos (by omega), if_neg (by omega)]
            ring

lemma triDiag_symmetric {J : ℕ} (hJ : 2 ≤ J) (off dEnd dMid : ℚ) (i j : Fin J) :
    triDiag J off dEnd dMid i j = triDiag J off dEnd dMid j i := by
  rw [triDiag_apply hJ, triDiag_apply hJ]
  rcases eq_or_ne i j with rfl | hne
  · rfl
  · rw [if_neg hne, if_neg (Ne.symm hne)]
    by_cases h : i.val + 1 = j.val ∨ j.val + 1 = i.val
    · rw [if_pos h, if_pos (Or.symm h)]
    · rw [if_neg h, if_neg fun hc => h (Or.symm hc)]

lemma triDiag_col_sum {J : ℕ} (hJ : 2 ≤ J) (off dEnd dMid : ℚ) (j : Fin J) :
    ∑ i, triDiag J off dEnd dMid i j
      = if j.val = 0 ∨ j.val = J - 1 then dEnd + off else dMid + 2 * off := by
  rw [Finset.sum_congr rfl fun i _ => triDiag_symmetric hJ off dEnd dMid i j]
  exact triDiag_row_sum hJ off dEnd dMid j

lemma A_mat_col_sum {J : ℕ} (hJ : 2 ≤ J) (s : ℚ) (j : Fin J) :
    ∑ i, A_mat J s i j = 1 := by
  rw [A_mat, triDiag_col_sum hJ]
  by_cases h : j.val = 0 ∨ j.val = J - 1
  · rw [if_pos h]; ring
  · rw [if_neg h]; ring

lemma B_mat_col_sum {J : ℕ} (hJ : 2 ≤ J) (s : ℚ) (j : Fin J) :
    ∑ i, B_mat J s i j = 1 := by
  rw [B_mat, triDiag_col_sum hJ]
  by_cases h : j.val = 0 ∨ j.val = J - 1
  · rw [if_pos h]; ring
  · rw [if_neg h]; ring

lemma mulVec_apply_eq_sum {J : ℕ} (M : Matrix (Fin J) (Fin J) ℚ) (x : Fin J → ℚ) (i : Fin J) :
    M.mulVec x i = ∑ j, M i j * x j := by
  simp [Matrix.mulVec, Matrix.dotProduct]

lemma sum_mulVec_of_col_sum_one {J : ℕ} (M : Matrix (Fin J) (Fin J) ℚ)
    (h : ∀ j, ∑ i, M i j = 1) (x : Fin J → ℚ) :
    ∑ i, M.mulVec x i = ∑ j, x j := by
  calc ∑ i, M.mulVec x i = ∑ i, ∑ j, M i j * x j :=
        Finset.sum_congr rfl fun i _ => mulVec_apply_eq_sum M x i
    _ = ∑ j, ∑ i, M i j * x j := Finset.sum_comm
    _ = ∑ j, x j := Finset.sum_congr rfl fun j _ => by rw [← Finset.sum_mul, h j, one_mul]

lemma mulVec_solveExact {J : ℕ} (M : Matrix (Fin J) (Fin J) ℚ) (hdet : M.det ≠ 0)
    (b : Fin J → ℚ) : M.mulVec (solveExact M b) = b := by
  rw [solveExact, Matrix.mulVec_mulVec]
  have h1 : M * (M.det⁻¹ • M.adjugate) = 1 := by
    rw [Matrix.mul_smul, Matrix.mul_adjugate, smul_smul, inv_mul_cancel₀ hdet, one_smul]
  rw [h1, Matrix.one_mulVec]

end CNRK

namespace CNRK

lemma rat_norm_eq_abs (q : ℚ) : ‖q‖ = |(q : ℝ)| := by
  rw [← Rat.norm_cast_real, Real.norm_eq_abs]

lemma rat_norm_of_nonneg {q : ℚ} (h : 0 ≤ q) : ‖q‖ = (q : ℝ) := by
  rw [rat_norm_eq_abs, abs_of_nonneg (by exact_mod_cast h)]

lemma A_mat_det_ne_zero {J : ℕ} (hJ : 2 ≤ J) {s : ℚ} (hs : 0 ≤ s) :
    (A_mat J s).det ≠ 0 := by
  apply det_ne_zero_of_sum_row_lt_diag
  intro k
  have hk : k.val < J := k.isLt
  have hsR : (0 : ℝ) ≤ (s : ℝ) := by exact_mod_cast hs
  have hdiag : A_mat J s k k = if k.val = 0 ∨ k.val = J - 1 then 1 + s else 1 + 2 * s := by
    rw [A_mat, triDiag_apply hJ, if_pos rfl]
  have hneg : ‖(-s : ℚ)‖ = (s : ℝ) := by
    rw [rat_norm_eq_abs]
    push_cast
    rw [abs_neg, abs_of_nonneg hsR]
  have hnorm : ∀ j : Fin J, j ≠ k → ‖A_mat J s k j‖
      = (if j.val = k.val + 1 then (s : ℝ) else 0)
        + (if j.val + 1 = k.val then (s : ℝ) else 0) := by
    intro j hne
    rw [A_mat, triDiag_apply hJ, if_neg (Ne.symm hne)]
    by_cases h1 : k.val + 1 = j.val
    · rw [if_pos (Or.inl h1), hneg, if_pos h1.symm, if_neg (by omega)]
      ring
    · by_cases h2 : j.val + 1 = k.val
      · rw [if_pos (Or.inr h2), hneg, if_neg (by omega), if_pos h2]
        ring
      · rw [if_neg (by omega), if_neg (by omega), if_neg (by omega)]
        simp
  have hersum : ∑ j ∈ Finset.univ.erase k, ‖A_mat J s k j‖
      = (if k.val + 1 < J then (s : ℝ) else 0) + (if 1 ≤ k.val then (s : ℝ) else 0) := by
    calc ∑ j ∈ Finset.univ.erase k, ‖A_mat J s k j‖
        = ∑ j ∈ Finset.univ.erase k,
            ((if j.val = k.val + 1 then (s : ℝ) else 0)
              + (if j.val + 1 = k.val then (s : ℝ) else 0)) :=
          Finset.sum_congr rfl fun j hj => hnorm j (Finset.ne_of_mem_erase hj)
      _ = (∑ j : Fin J, ((if j.val = k.val + 1 then (s : ℝ) else 0)
              + (if j.val + 1 = k.val then (s : ℝ) else 0)))
            - ((if (k.val : ℕ) = k.val + 1 then (s : ℝ) else 0)
              + (if k.val + 1 = k.val then (s : ℝ) else 0)) :=
          Finset.sum_erase_eq_sub (Finset.mem_univ k)
      _ = ∑ j : Fin J, ((if j.val = k.val + 1 then (s : ℝ) else 0)
              + (if j.val + 1 = k.val then (s : ℝ) else 0)) := by
          rw [if_neg (by omega), if_neg (by omega)]
          ring
      _ = (∑ j : Fin J, if j.val = k.val + 1 then (s : ℝ) else 0)
            + (∑ j : Fin J, if j.val + 1 = k.val then (s : ℝ) else 0) :=
          Finset.sum_add_distrib
      _ = (if k.val + 1 < J then (s : ℝ) else 0) + (if 1 ≤ k.val then (s : ℝ) else 0) := by
          rw [sumIteVal J (k.val + 1) fun _ => (s : ℝ), sumIteSucc J k.val (s : ℝ)]
          congr 1
          by_cases h : 1 ≤ k.val
          · rw [if_pos ⟨h, by omega⟩, if_pos h]
          · rw [if_neg (by omega), if_neg h]
  rw [hersum, hdiag]
  by_cases h0 : k.val = 0
  · rw [if_pos (by omega), if_neg (by omega), if_pos (Or.inl h0),
      rat_norm_of_nonneg (by linarith)]
    push_cast
    linarith
  · by_cases hl : k.val = J - 1
    · rw [if_neg (by omega), if_pos (by omega), if_pos (Or.inr hl),
        rat_norm_of_nonneg (by linarith)]
      push_cast
      linarith
    · rw [if_pos (by omega), if_pos (by omega), if_neg (by omega),
        rat_norm_of_nonneg (by linarith)]
      push_cast
      linarith

lemma init_mass_eq {J : ℕ} (hJ : J ≠ 0) (tp dx : ℚ) (hdx : dx ≠ 0) (U : Fin J → ℚ) :
    totalMass dx U (V_init J tp dx U) = tp := by
  have hJQ : (J : ℚ) ≠ 0 := Nat.cast_ne_zero.mpr hJ
  have hc : ∀ j : Fin J, (U j + V_init J tp dx U j) * dx
      = U j * dx + (tp - dx * ∑ i, U i) / ((J : ℚ) * dx) * dx := fun j => by
    simp only [V_init]
    ring
  rw [totalMass, Finset.sum_congr rfl fun j _ => hc j, Finset.sum_add_distrib,
    Finset.sum_const, Finset.card_univ, Fintype.card_fin, nsmul_eq_mul, ← Finset.sum_mul]
  field_simp
  ring

lemma f_vec_eq_rateSpec {J : ℕ} (k0 : ℚ) (U V : Fin J → ℚ) :
    f_vec k0 U V = rateSpec k0 U V := by
  funext j
  simp only [f_vec, rateSpec, rateDenom, sq]

lemma add_mul_fun_eq {J : ℕ} (U W : Fin J → ℚ) (c : ℚ) :
    (fun j => U j + c * W j) = U + c • W := by
  funext j
  simp [smul_eq_mul]

lemma sub_mul_fun_eq {J : ℕ} (V W : Fin J → ℚ) (c : ℚ) :
    (fun j => V j - c * W j) = V - c • W := by
  funext j
  simp [smul_eq_mul]

/-! ### Claim theorems -/

/-- C3: the Runge-Kutta reaction variant computes the four stages
`k1 = rate(U,V)`, `k2 = rate(U+(dt/2)k1, V-(dt/2)k1)`,
`k3 = rate(U+(dt/2)k2, V-(dt/2)k2)`, `k4 = rate(U+dt·k3, V-dt·k3)` of the
unscaled rate `rate(U,V) = V·(k0+U²/(1+U²))−U` and returns
`dt/6·(k1+2k2+2k3+k4)`, with no `dt` factor inside the stage evaluations. -/
theorem c3_f_vec_rk_eq_rk4Spec {J : ℕ} (dt k0 : ℚ) (U V : Fin J → ℚ) :
    f_vec_rk dt k0 U V = rk4Spec dt k0 U V := by
  funext j
  simp only [f_vec_rk, rk4Spec, f_vec_eq_rateSpec, add_mul_fun_eq, sub_mul_fun_eq,
    Pi.add_apply, Pi.smul_apply, smul_eq_mul]

/-- C4: the explicit reaction variant returns `dt·(V·(k0+U²/(1+U²))−U)`
elementwise, evaluated once, and equals `dt` times the Runge-Kutta variant's
unscaled rate function `f_vec` applied to the same inputs. -/
theorem c4_f_vec_ee_eq_dt_rate {J : ℕ} (dt k0 : ℚ) (U V : Fin J → ℚ) :
    (∀ j, f_vec_ee dt k0 U V j = dt * (V j * (k0 + U j * U j / (1 + U j * U j)) - U j))
      ∧ f_vec_ee dt k0 U V = dt • f_vec k0 U V := by
  constructor
  · intro j
    simp only [f_vec_ee, rateDenom]
  · funext j
    simp [f_vec_ee, f_vec, smul_eq_mul]

/-- C10: the denominator `1 + u*u` of the reaction nonlinearity is at least 1,
hence nonzero, for every rational input, so the elementwise division inside
both reaction variants (`f_vec_ee` and each `f_vec_rk` stage) is a genuine
cancellable division at every grid point and neither variant can divide by
zero. -/
theorem c10_rateDenom_safe :
    ∀ u : ℚ, 1 ≤ rateDenom u ∧ rateDenom u ≠ 0
      ∧ u * u / rateDenom u * rateDenom u = u * u := by
  intro u
  have h : 0 ≤ u * u := mul_self_nonneg u
  have h1 : 1 ≤ rateDenom u := by
    simp only [rateDenom]
    linarith
  have h0 : rateDenom u ≠ 0 := by
    intro hz
    rw [hz] at h1
    norm_num at h1
  exact ⟨h1, h0, div_mul_cancel₀ _ h0⟩

/-- C6: at every step and grid point, for either reaction variant, the
contribution subtracted in species V's right-hand side is the exact
elementwise negation of the contribution added in species U's right-hand
side — the same function value on the identical previous-step state — and
the notebook's scalar reactions satisfy `g = -f`. -/
theorem c6_reaction_antisymmetry {J : ℕ} (dt k0 : ℚ)
    (Bu Bv : Matrix (Fin J) (Fin J) ℚ)
    (fvec : (Fin J → ℚ) → (Fin J → ℚ) → Fin J → ℚ) (U V : Fin J → ℚ) (j : Fin J) :
    (∀ u v, g_scalar dt k0 u v = -(f_scalar dt k0 u v))
      ∧ rhsV Bv fvec U V j - Bv.mulVec V j = -(rhsU Bu fvec U V j - Bu.mulVec U j) := by
  constructor
  · intro u v
    rw [g_scalar]
  · simp only [rhsU, rhsV]
    ring

/-- C2: each species' sigma is `D·dt/(2·dx²)`, and the operators are J×J
tridiagonal matrices: `A` has diagonal `1+2σ` on interior rows, `1+σ` on the
first and last rows and `-σ` on both off-diagonal bands; `B` has the same
structure with flipped signs (`1-2σ`, `1-σ`, `+σ`); all other entries are 0. -/
theorem c2_operator_entries {J : ℕ} (hJ : 2 ≤ J) (D dt dx s : ℚ) (i j : Fin J) :
    sigma D dt dx = D * dt / (2 * dx ^ 2)
    ∧ A_mat J s i j =
        (if i = j then (if i.val = 0 ∨ i.val = J - 1 then 1 + s else 1 + 2 * s)
          else if i.val + 1 = j.val ∨ j.val + 1 = i.val then -s else 0)
    ∧ B_mat J s i j =
        (if i = j then (if i.val = 0 ∨ i.val = J - 1 then 1 - s else 1 - 2 * s)
          else if i.val + 1 = j.val ∨ j.val + 1 = i.val then s else 0) := by
  refine ⟨?_, ?_, ?_⟩
  · rw [sigma]
    ring
  · rw [A_mat, triDiag_apply hJ]
  · rw [B_mat, triDiag_apply hJ]

/-- Witness for C2 at `J = 3`, `σ = 1`: the interior diagonal entry of `A`
is `1+2σ = 3` and of `B` is `1-2σ = -1`. -/
theorem c2_operator_entries_witness : A_mat 3 1 1 1 = 3 ∧ B_mat 3 1 1 1 = -1 := by
  have h := c2_operator_entries (J := 3) (by norm_num) 1 1 1 1 1 1
  have hval : ((1 : Fin 3)).val = 1 := rfl
  constructor
  · rw [h.2.1, if_pos rfl, hval, if_neg (by omega)]
    norm_num
  · rw [h.2.2, if_pos rfl, hval, if_neg (by omega)]
    norm_num

/-- C8: for every `σ ≥ 0` and `J ≥ 2` the implicit operator `A` is
invertible (nonzero determinant, unit in the matrix ring), and the modelled
solve returns an exact solution for every right-hand side, so the
singular-matrix failure branch is unreachable. -/
theorem c8_A_invertible {J : ℕ} (s : ℚ) (hJ : 2 ≤ J) (hs : 0 ≤ s) :
    (A_mat J s).det ≠ 0 ∧ IsUnit (A_mat J s)
      ∧ ∀ b, (A_mat J s).mulVec (solveExact (A_mat J s) b) = b := by
  have hdet := A_mat_det_ne_zero hJ hs
  exact ⟨hdet, (Matrix.isUnit_iff_isUnit_det _).mpr (isUnit_iff_ne_zero.mpr hdet),
    fun b => mulVec_solveExact _ hdet b⟩

/-- Witness for C8 at `J = 2`, `σ = 1`. -/
theorem c8_A_invertible_witness : (A_mat 2 1).det ≠ 0 ∧ IsUnit (A_mat 2 1) :=
  ⟨(c8_A_invertible (J := 2) 1 (by norm_num) (by norm_num)).1,
    (c8_A_invertible (J := 2) 1 (by norm_num) (by norm_num)).2.1⟩

/-- C1: for every step `n ≥ 1` and any reaction variant `fvec`, step `n`'s
state is obtained from step `n-1`'s state alone by forming
`rhs_U = B_U·U + r` and `rhs_V = B_V·V - r` and solving
`A_U·U_next = rhs_U`, `A_V·V_next = rhs_V` (the solves hold exactly since
the operators are invertible). -/
theorem c1_step_recurrence {J : ℕ} (Au Bu Av Bv : Matrix (Fin J) (Fin J) ℚ)
    (fvec : (Fin J → ℚ) → (Fin J → ℚ) → Fin J → ℚ)
    (init : (Fin J → ℚ) × (Fin J → ℚ))
    (hAu : Au.det ≠ 0) (hAv : Av.det ≠ 0) (n : ℕ) (hn : 1 ≤ n) :
    recordAt Au Bu Av Bv fvec init n
        = stepCN Au Bu Av Bv fvec (recordAt Au Bu Av Bv fvec init (n - 1))
    ∧ Au.mulVec (recordAt Au Bu Av Bv fvec init n).1
        = rhsU Bu fvec (recordAt Au Bu Av Bv fvec init (n - 1)).1
            (recordAt Au Bu Av Bv fvec init (n - 1)).2
    ∧ Av.mulVec (recordAt Au Bu Av Bv fvec init n).2
        = rhsV Bv fvec (recordAt Au Bu Av Bv fvec init (n - 1)).1
            (recordAt Au Bu Av Bv fvec init (n - 1)).2 := by
  obtain ⟨m, rfl⟩ : ∃ m, n = m + 1 := ⟨n - 1, by omega⟩
  rw [Nat.add_sub_cancel]
  have hrec : recordAt Au Bu Av Bv fvec init (m + 1)
      = stepCN Au Bu Av Bv fvec (recordAt Au Bu Av Bv fvec init m) := rfl
  rw [hrec]
  exact ⟨rfl, mulVec_solveExact Au hAu _, mulVec_solveExact Av hAv _⟩

/-- Witness for C1 at `J = 2`, `σ = 1`, explicit-Euler variant, step `n = 1`. -/
theorem c1_step_recurrence_witness :
    recordAt (A_mat 2 1) (B_mat 2 1) (A_mat 2 1) (B_mat 2 1) (f_vec_ee 1 (67 / 1000))
        ((fun _ => 1), fun _ => 1) 1
      = stepCN (A_mat 2 1) (B_mat 2 1) (A_mat 2 1) (B_mat 2 1) (f_vec_ee 1 (67 / 1000))
          (recordAt (A_mat 2 1) (B_mat 2 1) (A_mat 2 1) (B_mat 2 1) (f_vec_ee 1 (67 / 1000))
            ((fun _ => 1), fun _ => 1) 0) :=
  (c1_step_recurrence (A_mat 2 1) (B_mat 2 1) (A_mat 2 1) (B_mat 2 1) (f_vec_ee 1 (67 / 1000))
    ((fun _ => 1), fun _ => 1)
    (A_mat_det_ne_zero (by norm_num) (by norm_num))
    (A_mat_det_ne_zero (by norm_num) (by norm_num)) 1 (by norm_num)).1

end CNRK

namespace CNRK

/-- C5: one time step with the notebook operators (any `σ_u, σ_v ≥ 0`,
`J ≥ 2`) and any reaction variant preserves the discrete total mass
`Σ_j (U_j + V_j)·dx` exactly, because the same reaction contribution enters
U's and V's right-hand sides with opposite signs and all column sums of the
`A` and `B` operators equal 1. -/
theorem c5_mass_conservation {J : ℕ} (hJ : 2 ≤ J) (su sv dx : ℚ)
    (hsu : 0 ≤ su) (hsv : 0 ≤ sv)
    (fvec : (Fin J → ℚ) → (Fin J → ℚ) → Fin J → ℚ) (U V : Fin J → ℚ) :
    totalMass dx (stepCN (A_mat J su) (B_mat J su) (A_mat J sv) (B_mat J sv) fvec (U, V)).1
        (stepCN (A_mat J su) (B_mat J su) (A_mat J sv) (B_mat J sv) fvec (U, V)).2
      = totalMass dx U V := by
  have hAu := A_mat_det_ne_zero hJ hsu
  have hAv := A_mat_det_ne_zero hJ hsv
  have hU : (A_mat J su).mulVec
      (stepCN (A_mat J su) (B_mat J su) (A_mat J sv) (B_mat J sv) fvec (U, V)).1
      = rhsU (B_mat J su) fvec U V := mulVec_solveExact _ hAu _
  have hV : (A_mat J sv).mulVec
      (stepCN (A_mat J su) (B_mat J su) (A_mat J sv) (B_mat J sv) fvec (U, V)).2
      = rhsV (B_mat J sv) fvec U V := mulVec_solveExact _ hAv _
  have hsU : ∑ i, (stepCN (A_mat J su) (B_mat J su) (A_mat J sv) (B_mat J sv) fvec (U, V)).1 i
      = ∑ j, U j + ∑ j, fvec U V j := by
    have h1 := sum_mulVec_of_col_sum_one (A_mat J su) (A_mat_col_sum hJ su)
      (stepCN (A_mat J su) (B_mat J su) (A_mat J sv) (B_mat J sv) fvec (U, V)).1
    rw [hU] at h1
    rw [← h1]
    simp only [rhsU]
    rw [Finset.sum_add_distrib, sum_mulVec_of_col_sum_one (B_mat J su) (B_mat_col_sum hJ su) U]
  have hsV : ∑ i, (stepCN (A_mat J su) (B_mat J su) (A_mat J sv) (B_mat J sv) fvec (U, V)).2 i
      = ∑ j, V j - ∑ j, fvec U V j := by
    have h1 := sum_mulVec_of_col_sum_one (A_mat J sv) (A_mat_col_sum hJ sv)
      (stepCN (A_mat J su) (B_mat J su) (A_mat J sv) (B_mat J sv) fvec (U, V)).2
    rw [hV] at h1
    rw [← h1]
    simp only [rhsV]
    rw [Finset.sum_sub_distrib, sum_mulVec_of_col_sum_one (B_mat J sv) (B_mat_col_sum hJ sv) V]
  rw [totalMass, totalMass, ← Finset.sum_mul, ← Finset.sum_mul, Finset.sum_add_distrib,
    Finset.sum_add_distrib, hsU, hsV]
  ring

/-- Witness for C5 at `J = 2`, `σ_u = σ_v = 1`, `dx = 1`, explicit-Euler
variant with `dt = 1`, `k0 = 67/1000`, constant initial state. -/
theorem c5_mass_conservation_witness :
    totalMass 1 (stepCN (A_mat 2 1) (B_mat 2 1) (A_mat 2 1) (B_mat 2 1)
        (f_vec_ee 1 (67 / 1000)) ((fun _ => 1), fun _ => 1)).1
      (stepCN (A_mat 2 1) (B_mat 2 1) (A_mat 2 1) (B_mat 2 1)
        (f_vec_ee 1 (67 / 1000)) ((fun _ => 1), fun _ => 1)).2
    = totalMass 1 (fun _ : Fin 2 => (1 : ℚ)) fun _ : Fin 2 => (1 : ℚ) :=
  c5_mass_conservation (by norm_num) 1 1 1 (by norm_num) (by norm_num)
    (f_vec_ee 1 (67 / 1000)) (fun _ => 1) fun _ => 1

/-- C9: for any operators, reaction variant and initial condition, the
trajectory record has exactly `N` entries, entry 0 is the supplied initial
condition, and each entry `n+1` is produced from entry `n` by one time
step, in increasing time order. -/
theorem c9_trajectory_record {J : ℕ} (Au Bu Av Bv : Matrix (Fin J) (Fin J) ℚ)
    (fvec : (Fin J → ℚ) → (Fin J → ℚ) → Fin J → ℚ)
    (init : (Fin J → ℚ) × (Fin J → ℚ)) (N : ℕ) :
    (trajectory Au Bu Av Bv fvec init N).length = N
    ∧ (0 < N → (trajectory Au Bu Av Bv fvec init N).getD 0 ((fun _ => 0), fun _ => 0) = init)
    ∧ ∀ n, n + 1 < N →
        (trajectory Au Bu Av Bv fvec init N).getD (n + 1) ((fun _ => 0), fun _ => 0)
          = stepCN Au Bu Av Bv fvec
              ((trajectory Au Bu Av Bv fvec init N).getD n ((fun _ => 0), fun _ => 0)) := by
  have hget : ∀ n, n < N →
      (trajectory Au Bu Av Bv fvec init N).getD n ((fun _ => 0), fun _ => 0)
        = recordAt Au Bu Av Bv fvec init n := by
    intro n hn
    rw [trajectory, List.getD_eq_getElem?_getD, List.getElem?_map, List.getElem?_range hn]
    rfl
  refine ⟨by simp [trajectory], fun hN => hget 0 hN, fun n hn => ?_⟩
  rw [hget (n + 1) hn, hget n (by omega)]
  rfl

/-- Witness for C9 at `J = 2`, `N = 2`, explicit-Euler variant. -/
theorem c9_trajectory_record_witness :
    (trajectory (A_mat 2 1) (B_mat 2 1) (A_mat 2 1) (B_mat 2 1) (f_vec_ee 1 (67 / 1000))
        ((fun _ => 1), fun _ => 1) 2).length = 2
    ∧ (trajectory (A_mat 2 1) (B_mat 2 1) (A_mat 2 1) (B_mat 2 1) (f_vec_ee 1 (67 / 1000))
        ((fun _ => 1), fun _ => 1) 2).getD 1 ((fun _ => 0), fun _ => 0)
      = stepCN (A_mat 2 1) (B_mat 2 1) (A_mat 2 1) (B_mat 2 1) (f_vec_ee 1 (67 / 1000))
          ((trajectory (A_mat 2 1) (B_mat 2 1) (A_mat 2 1) (B_mat 2 1) (f_vec_ee 1 (67 / 1000))
            ((fun _ => 1), fun _ => 1) 2).getD 0 ((fun _ => 0), fun _ => 0)) := by
  have h := c9_trajectory_record (A_mat 2 1) (B_mat 2 1) (A_mat 2 1) (B_mat 2 1)
    (f_vec_ee 1 (67 / 1000)) ((fun _ => 1), fun _ => 1) 2
  exact ⟨h.1, h.2.2 0 (by norm_num)⟩

/-- C7 counterexample: in the concrete scenario (`J = 200`, `no_high = 10`)
the first grid point of the initial `U` holds `0.1`, not `2.0`, so `U` is
not `2.0` on the first 10 grid points as the claim states. -/
theorem c7_counterexample : U_init 200 10 0 = 1 / 10 ∧ (1 / 10 : ℚ) ≠ 2 := by
  constructor
  · have hval : ((0 : Fin 200)).val = 0 := rfl
    rw [U_init, hval, U_init_list,
      List.getD_append _ _ _ 0 (by simp only [List.length_replicate]; norm_num)]
    exact getD_replicate_of_lt _ (by norm_num)
  · norm_num

/-- C7 amended: the initial `U` equals `0.1` on the first `J - 10 = 190`
grid points and `2.0` on the last 10 grid points, and `V` is the constant
vector chosen so that the initial discrete total mass equals `2.26`
(`dx = 1/199`). -/
theorem c7_initial_condition :
    (∀ j : Fin 200, U_init 200 10 j = if j.val < 190 then 1 / 10 else 2)
    ∧ totalMass (1 / 199) (U_init 200 10)
        (V_init 200 (226 / 100) (1 / 199) (U_init 200 10)) = 226 / 100 := by
  constructor
  · intro j
    have hj : j.val < 200 := j.isLt
    by_cases h : j.val < 190
    · rw [if_pos h, U_init, U_init_list,
        List.getD_append _ _ _ j.val (by simp only [List.length_replicate]; omega)]
      exact getD_replicate_of_lt _ (by omega)
    · rw [if_neg h, U_init, U_init_list,
        List.getD_append_right _ _ _ j.val (by simp only [List.length_replicate]; omega),
        List.length_replicate]
      exact getD_replicate_of_lt _ (by omega)
  · exact init_mass_eq (by norm_num) _ _ (by norm_num) _

end CNRK
